import Mathlib

set_option maxRecDepth 4000

/-!
Shallow embedding of the js-secure-uploader sources.

The streaming SHA-1 engine (object Sha1 of the hashing module) works on
JavaScript binary strings; we embed such a string as a list of natural
numbers (the character codes, bytes when the string is binary).  All
32-bit JavaScript arithmetic is embedded as natural-number arithmetic
with explicit reduction modulo 2 ^ 32: a signed 32-bit JavaScript value
and its unsigned residue are interchangeable for every operation the
source performs (and, or, xor, shifts, addition followed by masking),
so words are kept as naturals below 2 ^ 32.
-/

/-- One lowercase hexadecimal digit, as produced by the JavaScript
expression nChunk.toString( 16 ) for a nibble value. -/
def hexChar (n : Nat) : Char :=
  if n < 10 then Char.ofNat (48 + n) else Char.ofNat (87 + n)

/-- Embedding of Sha1.prototype.binaryToHexString: renders a 32-bit word
as 8 lowercase hex digits, most significant nibble first. -/
def binaryToHexString (nInput : Nat) : String :=
  String.mk ((List.range 8).map (fun k => hexChar ((nInput >>> ((7 - k) * 4)) &&& 0xf)))

/-- The five 32-bit accumulator words h0 .. h4 (this.aResults in the source). -/
structure HReg where
  h0 : Nat
  h1 : Nat
  h2 : Nat
  h3 : Nat
  h4 : Nat
deriving DecidableEq

/-- Embedding of Sha1.prototype.formatHashHex. -/
def formatHashHex (r : HReg) : String :=
  binaryToHexString r.h0 ++ binaryToHexString r.h1 ++ binaryToHexString r.h2 ++
    binaryToHexString r.h3 ++ binaryToHexString r.h4

/-- Embedding of Sha1.prototype.formatHashBinary: 20 characters whose
codes are the big-endian bytes of the five accumulator words. -/
def formatHashBinary (r : HReg) : String :=
  String.mk ((([r.h0, r.h1, r.h2, r.h3, r.h4].map (fun part =>
    (List.range 4).map (fun j => Char.ofNat ((part >>> (24 - j * 8)) &&& 0xff)))).flatten))

/-- Embedding of Sha1.prototype.leftRotate (circular left shift of a
32-bit word; the JavaScript left shift discards bits above bit 31,
modelled by the reduction modulo 2 ^ 32). -/
def leftRotate (nInput nOffset : Nat) : Nat :=
  ((nInput <<< nOffset) % 4294967296) ||| (nInput >>> (32 - nOffset))

/-- Embedding of the array Sha1.logicalFunctions (RFC 5); the JavaScript
bitwise complement of a 32-bit word is xor with 0xffffffff. -/
def logicalFunctions (nFunctionIndex nChunkB nChunkC nChunkD : Nat) : Nat :=
  match nFunctionIndex with
  | 0 => (nChunkB &&& nChunkC) ||| ((nChunkB ^^^ 0xffffffff) &&& nChunkD)
  | 2 => (nChunkB &&& nChunkC) ||| (nChunkB &&& nChunkD) ||| (nChunkC &&& nChunkD)
  | _ => nChunkB ^^^ nChunkC ^^^ nChunkD

/-- Embedding of the array Sha1.constants (RFC 5). -/
def sha1Constants (nFunctionIndex : Nat) : Nat :=
  match nFunctionIndex with
  | 0 => 0x5A827999
  | 1 => 0x6ED9EBA1
  | 2 => 0x8F1BBCDC
  | _ => 0xCA62C1D6

/-- Word-extension loop of Sha1.prototype.feedHashWithBlocks, carrying
the words built so far newest-first: when the source creates word j the
array holds words 0 .. j - 1, so the source reads at j - 3, j - 8,
j - 14, j - 16 are reads at head offsets 2, 7, 13, 15 of the reversed
list.  One step per remaining count n. -/
def extendWordsRev (ws : List Nat) : Nat → List Nat
  | 0 => ws
  | n + 1 => extendWordsRev
      (leftRotate ((ws.getD 2 0) ^^^ (ws.getD 7 0) ^^^ (ws.getD 13 0) ^^^ (ws.getD 15 0)) 1
        :: ws) n

/-- Embedding of the word-extension loop of Sha1.prototype.feedHashWithBlocks:
the 16 words of a block are extended to 80 words by the j = 16 .. 79 loop. -/
def extendWords (aBlock : List Nat) : List Nat :=
  (extendWordsRev aBlock.reverse 64).reverse

/-- Embedding of the 80-round loop of Sha1.prototype.feedHashWithBlocks,
acting on the working registers (a, b, c, d, e): one step per remaining
schedule word, with j the current round number. -/
def sha1RoundsGo (j : Nat) (ws : List Nat) (st : Nat × Nat × Nat × Nat × Nat) :
    Nat × Nat × Nat × Nat × Nat :=
  match ws with
  | [] => st
  | wj :: rest =>
    let nFunctionIndex := j / 20
    let nTempF := logicalFunctions nFunctionIndex st.2.1 st.2.2.1 st.2.2.2.1
    let nCurrentConstant := sha1Constants nFunctionIndex
    let nTemp := (leftRotate st.1 5 + nTempF + st.2.2.2.2 + nCurrentConstant + wj) % 4294967296
    sha1RoundsGo (j + 1) rest (nTemp, st.1, leftRotate st.2.1 30, st.2.2.1, st.2.2.2.1)

/-- Embedding of the per-block body of Sha1.prototype.feedHashWithBlocks:
extend the block to 80 words, run 80 rounds, add the working registers
into the accumulators with wraparound. -/
def compressBlock (r : HReg) (aBlock : List Nat) : HReg :=
  let w := extendWords aBlock
  let s := sha1RoundsGo 0 w (r.h0, r.h1, r.h2, r.h3, r.h4)
  { h0 := (r.h0 + s.1) % 4294967296
    h1 := (r.h1 + s.2.1) % 4294967296
    h2 := (r.h2 + s.2.2.1) % 4294967296
    h3 := (r.h3 + s.2.2.2.1) % 4294967296
    h4 := (r.h4 + s.2.2.2.2) % 4294967296 }

/-- Embedding of Sha1.prototype.feedHashWithBlocks over a list of blocks. -/
def feedHashWithBlocks (r : HReg) (aWords : List (List Nat)) : HReg :=
  aWords.foldl compressBlock r

/-- One 32-bit big-endian word of Sha1.prototype.chunk; reading a
character code past the end of the string yields NaN in the source,
which the shifts turn into 0, modelled by the default 0 of getD. -/
def chunkWord (sInput : List Nat) (base : Nat) : Nat :=
  ((sInput.getD base 0) <<< 24) ||| ((sInput.getD (base + 1) 0) <<< 16) |||
    ((sInput.getD (base + 2) 0) <<< 8) ||| (sInput.getD (base + 3) 0)

/-- Block number i produced by Sha1.prototype.chunk: sixteen 32-bit words
read big-endian from byte offset 64 * i, zero-padded past the input. -/
def chunkBlock (sInput : List Nat) (i : Nat) : List Nat :=
  (List.range 16).map (fun j => chunkWord sInput (i * 64 + j * 4))

/-- Embedding of Sha1.prototype.chunk: Math.ceil( length / 4 / 16 ) blocks. -/
def chunk (sInput : List Nat) : List (List Nat) :=
  (List.range ((sInput.length + 63) / 64)).map (fun i => chunkBlock sInput i)

/-- Bytes j = 0 .. count - 1 of a 32-bit word, big-endian, as extracted by
the inner loop of Sha1.prototype.extractBlock. -/
def extractWordBytes (word count : Nat) : List Nat :=
  (List.range count).map (fun j => (word >>> (24 - j * 8)) &&& 0xff)

/-- Embedding of Sha1.prototype.extractBlock.  The source iterates words
0 .. floor( payload / 4 ) inclusive; the last visited word yields
payload mod 4 bytes (none when the payload ends on a word boundary,
where the source inner loop bound is -1). -/
def extractBlock (aBlock : List Nat) (nLengthPayload : Nat) : List Nat :=
  if nLengthPayload = 0 then []
  else
    let nLastUsedWord := nLengthPayload / 4
    ((List.range (nLastUsedWord + 1)).map (fun i =>
      extractWordBytes (aBlock.getD i 0)
        (if i = nLastUsedWord then nLengthPayload - nLastUsedWord * 4 else 4))).flatten

/-- Embedding of Sha1.prototype.createEmptyBlock. -/
def createEmptyBlock : List Nat :=
  List.replicate 16 0

/-- Embedding of Sha1.prototype.padLastBlock (RFC 4 message padding done
at finalization time). -/
def padLastBlock (nAccumulatedMessageLength : Nat) (aLastBlock0 : List Nat) :
    List (List Nat) :=
  let nPaddingByteByte := nAccumulatedMessageLength % 4
  let nPaddingByteWord := (nAccumulatedMessageLength / 4) % 16
  let blockFull := nPaddingByteWord == 0 && nPaddingByteByte == 0
  let aReturn0 : List (List Nat) := if blockFull then [aLastBlock0] else []
  let aLastBlock1 : List Nat := if blockFull then createEmptyBlock else aLastBlock0
  let aLastBlock2 := aLastBlock1.set nPaddingByteWord
    ((aLastBlock1.getD nPaddingByteWord 0) ||| (0x80 <<< (24 - nPaddingByteByte * 8)))
  let aReturn1 := if nPaddingByteWord > 13 then aReturn0 ++ [aLastBlock2] else aReturn0
  let aLastBlock3 := if nPaddingByteWord > 13 then createEmptyBlock else aLastBlock2
  let aLastBlock4 := aLastBlock3.set 14 (nAccumulatedMessageLength / 2 ^ 29)
  let aLastBlock5 := aLastBlock4.set 15 ((nAccumulatedMessageLength * 8) % 4294967296)
  aReturn1 ++ [aLastBlock5]

/-- State of one Sha1 instance.  The source replaces this.feed with a
throwing function when finalize runs; the boolean finalized embeds that
replacement. -/
structure Sha1 where
  aResults : HReg
  aLastBlock : Option (List Nat)
  nAccumulatedMessageLength : Nat
  finalized : Bool
deriving DecidableEq

deriving instance DecidableEq for Except

/-- Embedding of the Sha1 constructor (RFC 6.1 initialization). -/
def Sha1.new : Sha1 :=
  { aResults := { h0 := 0x67452301, h1 := 0xEFCDAB89, h2 := 0x98BADCFE
                  h3 := 0x10325476, h4 := 0xC3D2E1F0 }
    aLastBlock := none
    nAccumulatedMessageLength := 0
    finalized := false }

/-- Embedding of Sha1.prototype.feed on binary input (the bUnicode = true
re-encoding path is not used by the uploader and is not modelled).  A
feed after finalize throws in the source; here it returns an error.  An
empty input returns the instance unchanged.  Otherwise the retained last
block is extracted back to ( length mod 64 ) or 64 bytes, glued in front
of the input, re-chunked; all blocks but the last are compressed and the
last block is retained. -/
def Sha1.feed (self : Sha1) (sInput : List Nat) : Except String Sha1 :=
  if self.finalized then
    .error ("You cannot feed an already finalized hash again.")
  else if sInput.isEmpty then
    .ok self
  else
    let sFeed : List Nat :=
      match self.aLastBlock with
      | some aLast =>
          extractBlock aLast
            (if self.nAccumulatedMessageLength % 64 = 0 then 64
             else self.nAccumulatedMessageLength % 64) ++ sInput
      | none => sInput
    let aWords := chunk sFeed
    .ok { aResults := feedHashWithBlocks self.aResults aWords.dropLast
          aLastBlock := aWords.getLast?
          nAccumulatedMessageLength := self.nAccumulatedMessageLength + sInput.length
          finalized := false }

/-- Embedding of Sha1.prototype.finalize: compress the padded retained
block (skipped when none was ever retained), disable feeding, and render
the accumulators as a binary or hexadecimal digest. -/
def Sha1.finalize (self : Sha1) (bRaw : Bool) : String × Sha1 :=
  let selfA : Sha1 :=
    match self.aLastBlock with
    | some aLast =>
        { self with
          aResults := feedHashWithBlocks self.aResults
            (padLastBlock self.nAccumulatedMessageLength aLast)
          aLastBlock := none }
    | none => self
  let selfB : Sha1 := { selfA with finalized := true }
  (if bRaw then formatHashBinary selfB.aResults else formatHashHex selfB.aResults, selfB)

/-- Successive feed calls, one per piece. -/
def Sha1.feedAll (self : Sha1) (pieces : List (List Nat)) : Except String Sha1 :=
  match pieces with
  | [] => .ok self
  | p :: rest => (self.feed p).bind (fun s => s.feedAll rest)

/-- Hex digest of one fresh single-feed hash (the way both the worker and
the receiver use the engine). -/
def sha1hex (input : List Nat) : String :=
  match Sha1.new.feed input with
  | .ok s => (s.finalize false).1
  | .error _ => ""

/-- Character codes of a JavaScript string (bytes, for a binary string). -/
def strToBytes (s : String) : List Nat :=
  s.data.map Char.toNat

/-- Unprocessed bytes currently buffered by an instance: the meaningful
payload of the retained block, exactly what the next feed glues in front
of its input. -/
def Sha1.pendingBytes (self : Sha1) : List Nat :=
  match self.aLastBlock with
  | none => []
  | some aLast =>
      extractBlock aLast
        (if self.nAccumulatedMessageLength % 64 = 0 then 64
         else self.nAccumulatedMessageLength % 64)

/-!
Characterization of the state reached by feeding, used to relate
incremental and one-shot hashing: after feeding a byte sequence s (in
any number of pieces), the accumulators have absorbed exactly the
greatest multiple-of-64 proper prefix of s and the retained block holds
the remaining 1 to 64 bytes.
-/

/-- Number of meaningful bytes in the retained block after a total of n
bytes were fed (the source expression ( n mod 64 ) or 64). -/
def pendLen (n : Nat) : Nat :=
  if n % 64 = 0 then 64 else n % 64

/-- Number of bytes already absorbed into the accumulators after a total
of n fed bytes: the input minus the retained payload. -/
def compLen (n : Nat) : Nat :=
  n - pendLen n

/-- The state determined by the concatenation of everything fed so far. -/
def canonicalSha1 (s : List Nat) : Sha1 :=
  { aResults := feedHashWithBlocks Sha1.new.aResults (chunk (s.take (compLen s.length)))
    aLastBlock := (chunk (s.drop (compLen s.length))).getLast?
    nAccumulatedMessageLength := s.length
    finalized := false }

lemma pendLen_pos (n : Nat) : 1 ≤ pendLen n := by
  unfold pendLen; split <;> omega

lemma pendLen_le64 (n : Nat) : pendLen n ≤ 64 := by
  unfold pendLen; split <;> omega

lemma pendLen_le {n : Nat} (h : n ≠ 0) : pendLen n ≤ n := by
  unfold pendLen; split <;> omega

lemma compLen_mod (n : Nat) : compLen n % 64 = 0 := by
  unfold compLen pendLen; split <;> omega

lemma compLen_le (n : Nat) : compLen n ≤ n :=
  Nat.sub_le n (pendLen n)

lemma compLen_add {a : Nat} (b : Nat) (ha : a ≠ 0) :
    compLen (a + b) = compLen a + compLen (pendLen a + b) := by
  unfold compLen pendLen; split <;> split <;> split <;> omega

lemma byte_getD {s : List Nat} (hs : ∀ b ∈ s, b < 256) (i : Nat) : s.getD i 0 < 256 := by
  rw [List.getD_eq_getElem?_getD]
  cases h : s[i]? with
  | none => simp
  | some v => simpa using hs v (List.getElem?_mem h)

lemma shiftLeft_lor_eq_add {b k : Nat} (a : Nat) (hb : b < 2 ^ k) :
    (a <<< k) ||| b = a * 2 ^ k + b := by
  apply Nat.eq_of_testBit_eq
  intro i
  rw [Nat.testBit_or, Nat.testBit_shiftLeft, Nat.mul_comm a (2 ^ k),
    Nat.testBit_mul_pow_two_add a hb i]
  by_cases h : i < k
  · have hk : ¬ k ≤ i := by omega
    simp [h, hk]
  · have hk : k ≤ i := by omega
    have hbf : b.testBit i = false :=
      Nat.testBit_lt_two_pow (lt_of_lt_of_le hb (Nat.pow_le_pow_right (by omega) hk))
    simp [h, hk, hbf]

lemma chunkWord_eq_sum {s : List Nat} (hs : ∀ b ∈ s, b < 256) (base : Nat) :
    chunkWord s base =
      s.getD base 0 * 2 ^ 24 + s.getD (base + 1) 0 * 2 ^ 16 +
        s.getD (base + 2) 0 * 2 ^ 8 + s.getD (base + 3) 0 := by
  have h0 := byte_getD hs base
  have h1 := byte_getD hs (base + 1)
  have h2 := byte_getD hs (base + 2)
  have h3 := byte_getD hs (base + 3)
  unfold chunkWord
  rw [Nat.or_assoc, Nat.or_assoc,
    shiftLeft_lor_eq_add _ (show s.getD (base + 3) 0 < 2 ^ 8 by omega),
    shiftLeft_lor_eq_add _ (show _ * 2 ^ 8 + _ < 2 ^ 16 by omega),
    shiftLeft_lor_eq_add _ (show _ * 2 ^ 16 + (_ * 2 ^ 8 + _) < 2 ^ 24 by omega)]
  omega

lemma unpack_byte {b0 b1 b2 b3 : Nat} (h0 : b0 < 256) (h1 : b1 < 256) (h2 : b2 < 256)
    (h3 : b3 < 256) (j : Nat) (hj : j < 4) :
    ((b0 * 2 ^ 24 + b1 * 2 ^ 16 + b2 * 2 ^ 8 + b3) >>> (24 - j * 8)) &&& 0xff =
      [b0, b1, b2, b3].getD j 0 := by
  have hff : (0xff : Nat) = 2 ^ 8 - 1 := rfl
  interval_cases j <;>
    simp only [Nat.shiftRight_eq_div_pow, hff, Nat.and_pow_two_sub_one_eq_mod,
      List.getD_cons_zero, List.getD_cons_succ] <;>
    omega

lemma map_getD_range (t : List Nat) :
    (List.range t.length).map (fun i => t.getD i 0) = t := by
  induction t with
  | nil => rfl
  | cons a t ih =>
      rw [List.length_cons, List.range_succ_eq_map, List.map_cons, List.map_map]
      have hmap : ((fun i => (a :: t).getD i 0) ∘ Nat.succ) = (fun i => t.getD i 0) := by
        funext i
        simp
      rw [hmap, ih]
      simp

lemma groups_flatten (t : List Nat) (q r : Nat) :
    ((List.range q).map (fun i => (List.range 4).map (fun j => t.getD (i * 4 + j) 0))).flatten ++
        (List.range r).map (fun j => t.getD (q * 4 + j) 0) =
      (List.range (q * 4 + r)).map (fun idx => t.getD idx 0) := by
  induction q generalizing r with
  | zero => simp
  | succ q ih =>
      have h4r : List.range (4 + r) = List.range 4 ++ (List.range r).map (fun x => 4 + x) :=
        List.range_add 4 r
      have hstep := ih (4 + r)
      rw [h4r, List.map_append, List.map_map] at hstep
      rw [List.range_succ q, List.map_append, List.flatten_append, List.append_assoc]
      simp only [List.map_cons, List.map_nil, List.flatten_cons, List.flatten_nil,
        List.append_nil]
      calc ((List.range q).map (fun i => (List.range 4).map (fun j => t.getD (i * 4 + j) 0))).flatten
            ++ ((List.range 4).map (fun j => t.getD (q * 4 + j) 0) ++
              (List.range r).map (fun j => t.getD ((q + 1) * 4 + j) 0))
          = ((List.range q).map (fun i =>
              (List.range 4).map (fun j => t.getD (i * 4 + j) 0))).flatten ++
            ((List.range 4).map (fun j => t.getD (q * 4 + j) 0) ++
              (List.range r).map ((fun j => t.getD (q * 4 + j) 0) ∘ (fun x => 4 + x))) := by
            congr 2
            apply List.map_congr_left
            intro x _
            simp only [Function.comp]
            rw [show (q + 1) * 4 + x = q * 4 + (4 + x) by omega]
        _ = (List.range (q * 4 + (4 + r))).map (fun idx => t.getD idx 0) := by
            exact hstep
        _ = (List.range ((q + 1) * 4 + r)).map (fun idx => t.getD idx 0) := by
            rw [show q * 4 + (4 + r) = (q + 1) * 4 + r by omega]

lemma chunkBlock_getD (s : List Nat) (i : Nat) (h : i < 16) :
    (chunkBlock s 0).getD i 0 = chunkWord s (i * 4) := by
  unfold chunkBlock
  rw [List.getD_eq_getElem?_getD, List.getElem?_map, List.getElem?_range h]
  simp

lemma chunkBlock_getD_sixteen (s : List Nat) :
    (chunkBlock s 0).getD 16 0 = 0 := by
  have hlen : (chunkBlock s 0).length = 16 := by
    simp [chunkBlock]
  rw [List.getD_eq_getElem?_getD, List.getElem?_eq_none (by omega)]
  rfl

lemma extractWordBytes_word {t : List Nat} (hs : ∀ b ∈ t, b < 256) (base count : Nat)
    (hcount : count ≤ 4) :
    extractWordBytes (chunkWord t base) count =
      (List.range count).map (fun j => t.getD (base + j) 0) := by
  unfold extractWordBytes
  apply List.map_congr_left
  intro j hj
  have hj4 : j < 4 := lt_of_lt_of_le (List.mem_range.mp hj) hcount
  rw [chunkWord_eq_sum hs base,
    unpack_byte (byte_getD hs base) (byte_getD hs (base + 1)) (byte_getD hs (base + 2))
      (byte_getD hs (base + 3)) j hj4]
  interval_cases j <;> simp

lemma extract_chunkBlock {t : List Nat} (hs : ∀ b ∈ t, b < 256) (hne : t ≠ [])
    (h64 : t.length ≤ 64) :
    extractBlock (chunkBlock t 0) t.length = t := by
  have hp : t.length ≠ 0 := by
    simpa [List.length_eq_zero] using hne
  unfold extractBlock
  rw [if_neg hp]
  dsimp only
  have hq16 : t.length / 4 ≤ 16 := by omega
  rw [List.range_succ (t.length / 4), List.map_append]
  simp only [List.map_cons, List.map_nil, List.flatten_append, List.flatten_cons,
    List.flatten_nil, List.append_nil]
  have hfull : ((List.range (t.length / 4)).map (fun i =>
      extractWordBytes ((chunkBlock t 0).getD i 0)
        (if i = t.length / 4 then t.length - t.length / 4 * 4 else 4))) =
      (List.range (t.length / 4)).map (fun i =>
        (List.range 4).map (fun j => t.getD (i * 4 + j) 0)) := by
    apply List.map_congr_left
    intro i hi
    have hilt : i < t.length / 4 := List.mem_range.mp hi
    rw [if_neg (by omega), chunkBlock_getD t i (by omega),
      extractWordBytes_word hs (i * 4) 4 (by omega)]
  have hlast : extractWordBytes ((chunkBlock t 0).getD (t.length / 4) 0)
      (t.length - t.length / 4 * 4) =
      (List.range (t.length % 4)).map (fun j => t.getD (t.length / 4 * 4 + j) 0) := by
    by_cases h16 : t.length / 4 = 16
    · have hlen64 : t.length = 64 := by omega
      rw [h16, chunkBlock_getD_sixteen, hlen64]
      simp [extractWordBytes]
    · rw [chunkBlock_getD t (t.length / 4) (by omega),
        show t.length - t.length / 4 * 4 = t.length % 4 by omega,
        extractWordBytes_word hs (t.length / 4 * 4) (t.length % 4) (by omega)]
  rw [hfull, if_pos trivial, hlast, groups_flatten t (t.length / 4) (t.length % 4),
    show t.length / 4 * 4 + t.length % 4 = t.length by omega]
  exact map_getD_range t

lemma chunkBlock_append_left (u v : List Nat) (i : Nat) (h : 64 * i + 64 ≤ u.length) :
    chunkBlock (u ++ v) i = chunkBlock u i := by
  unfold chunkBlock
  apply List.map_congr_left
  intro j hj
  have hj16 : j < 16 := List.mem_range.mp hj
  unfold chunkWord
  have hg : ∀ c : Nat, c < 4 → (u ++ v).getD (i * 64 + j * 4 + c) 0 =
      u.getD (i * 64 + j * 4 + c) 0 := by
    intro c hc
    rw [List.getD_eq_getElem?_getD, List.getElem?_append_left (by omega),
      List.getD_eq_getElem?_getD]
  have hg0 := hg 0 (by omega)
  simp only [Nat.add_zero] at hg0
  rw [hg0, hg 1 (by omega), hg 2 (by omega), hg 3 (by omega)]

lemma chunkBlock_append_right (u v : List Nat) (m i : Nat) (h : u.length = 64 * m) :
    chunkBlock (u ++ v) (m + i) = chunkBlock v i := by
  unfold chunkBlock
  apply List.map_congr_left
  intro j hj
  unfold chunkWord
  have h0 : ∀ c : Nat, (u ++ v).getD ((m + i) * 64 + j * 4 + c) 0 =
      v.getD (i * 64 + j * 4 + c) 0 := by
    intro c
    rw [List.getD_eq_getElem?_getD, List.getElem?_append_right (by omega),
      show (m + i) * 64 + j * 4 + c - u.length = i * 64 + j * 4 + c by omega,
      List.getD_eq_getElem?_getD]
  have h0z := h0 0
  simp only [Nat.add_zero] at h0z
  rw [h0z, h0 1, h0 2, h0 3]

lemma chunk_append (u v : List Nat) (hu : u.length % 64 = 0) :
    chunk (u ++ v) = chunk u ++ chunk v := by
  obtain ⟨m, hm⟩ : ∃ m, u.length = 64 * m := ⟨u.length / 64, by omega⟩
  unfold chunk
  rw [List.length_append, hm,
    show (64 * m + v.length + 63) / 64 = m + (v.length + 63) / 64 by omega,
    List.range_add, List.map_append, List.map_map,
    show (64 * m + 63) / 64 = m by omega]
  have hpart1 : (List.range m).map (fun i => chunkBlock (u ++ v) i) =
      (List.range m).map (fun i => chunkBlock u i) := by
    apply List.map_congr_left
    intro i hi
    have him : i < m := List.mem_range.mp hi
    exact chunkBlock_append_left u v i (by omega)
  have hpart2 : (List.range ((v.length + 63) / 64)).map
        ((fun i => chunkBlock (u ++ v) i) ∘ (fun i => m + i)) =
      (List.range ((v.length + 63) / 64)).map (fun i => chunkBlock v i) := by
    apply List.map_congr_left
    intro i _
    exact chunkBlock_append_right u v m i hm
  rw [hpart1, hpart2]

lemma chunk_small (v : List Nat) (h1 : v ≠ []) (h64 : v.length ≤ 64) :
    chunk v = [chunkBlock v 0] := by
  have hpos : 0 < v.length := List.length_pos.mpr h1
  unfold chunk
  rw [show (v.length + 63) / 64 = 1 by omega]
  rfl

lemma pendLen_eq_length_drop {w : List Nat} (h : w ≠ []) :
    (w.drop (compLen w.length)).length = pendLen w.length := by
  have hpos : 0 < w.length := List.length_pos.mpr h
  have hle := pendLen_le (by omega : w.length ≠ 0)
  rw [List.length_drop]
  unfold compLen
  omega

lemma drop_compLen_ne_nil {w : List Nat} (h : w ≠ []) :
    w.drop (compLen w.length) ≠ [] := by
  have hlen := pendLen_eq_length_drop h
  have hpos := pendLen_pos w.length
  intro hnil
  rw [hnil] at hlen
  simp only [List.length_nil] at hlen
  omega

lemma chunk_decomp (w : List Nat) (h : w ≠ []) :
    chunk w = chunk (w.take (compLen w.length)) ++
      [chunkBlock (w.drop (compLen w.length)) 0] := by
  have hsmall : chunk (w.drop (compLen w.length)) =
      [chunkBlock (w.drop (compLen w.length)) 0] := by
    apply chunk_small _ (drop_compLen_ne_nil h)
    rw [pendLen_eq_length_drop h]
    exact pendLen_le64 w.length
  calc chunk w = chunk (w.take (compLen w.length) ++ w.drop (compLen w.length)) := by
        rw [List.take_append_drop]
    _ = chunk (w.take (compLen w.length)) ++ chunk (w.drop (compLen w.length)) := by
        apply chunk_append
        rw [List.length_take_of_le (compLen_le w.length)]
        exact compLen_mod w.length
    _ = chunk (w.take (compLen w.length)) ++ [chunkBlock (w.drop (compLen w.length)) 0] := by
        rw [hsmall]

lemma canonical_nil : canonicalSha1 [] = Sha1.new := by
  rfl

lemma take_len_append {α : Type} (A B : List α) {n : Nat} (h : A.length = n) (m : Nat) :
    (A ++ B).take (n + m) = A ++ B.take m := by
  subst h
  exact List.take_append m

lemma drop_len_append {α : Type} (A B : List α) {n : Nat} (h : A.length = n) (m : Nat) :
    (A ++ B).drop (n + m) = B.drop m := by
  subst h
  exact List.drop_append m

lemma feed_unfold_none (self : Sha1) (sInput : List Nat) (hfin : self.finalized = false)
    (hne : sInput.isEmpty = false) (hlast : self.aLastBlock = none) :
    self.feed sInput = .ok
      { aResults := feedHashWithBlocks self.aResults (chunk sInput).dropLast
        aLastBlock := (chunk sInput).getLast?
        nAccumulatedMessageLength := self.nAccumulatedMessageLength + sInput.length
        finalized := false } := by
  unfold Sha1.feed
  rw [hfin, hne, hlast]
  simp

lemma feed_unfold_some (self : Sha1) (sInput : List Nat) (hfin : self.finalized = false)
    (hne : sInput.isEmpty = false) (aLast : List Nat) (hlast : self.aLastBlock = some aLast) :
    self.feed sInput = .ok
      { aResults := feedHashWithBlocks self.aResults
          (chunk (extractBlock aLast
            (if self.nAccumulatedMessageLength % 64 = 0 then 64
             else self.nAccumulatedMessageLength % 64) ++ sInput)).dropLast
        aLastBlock := (chunk (extractBlock aLast
            (if self.nAccumulatedMessageLength % 64 = 0 then 64
             else self.nAccumulatedMessageLength % 64) ++ sInput)).getLast?
        nAccumulatedMessageLength := self.nAccumulatedMessageLength + sInput.length
        finalized := false } := by
  unfold Sha1.feed
  rw [hfin, hne, hlast]
  simp

lemma feed_canonical (s p : List Nat) (hs : ∀ b ∈ s, b < 256) :
    (canonicalSha1 s).feed p = .ok (canonicalSha1 (s ++ p)) := by
  by_cases hp : p = []
  · subst hp
    rw [List.append_nil]
    unfold Sha1.feed
    simp [canonicalSha1]
  · have hpe : p.isEmpty = false := by
      cases p with
      | nil => exact absurd rfl hp
      | cons a q => rfl
    by_cases hs0 : s = []
    · subst hs0
      rw [List.nil_append, canonical_nil]
      rw [feed_unfold_none Sha1.new p rfl hpe rfl]
      have hdecomp := chunk_decomp p hp
      have hsmall : chunk (p.drop (compLen p.length)) =
          [chunkBlock (p.drop (compLen p.length)) 0] := by
        apply chunk_small _ (drop_compLen_ne_nil hp)
        rw [pendLen_eq_length_drop hp]
        exact pendLen_le64 _
      unfold canonicalSha1
      rw [hdecomp, List.dropLast_concat, List.getLast?_concat, hsmall]
      simp [Sha1.new]
    · have hs0' : s.length ≠ 0 := by
        simpa [List.length_eq_zero] using hs0
      have htlen : (s.drop (compLen s.length)).length = pendLen s.length :=
        pendLen_eq_length_drop hs0
      have htne : s.drop (compLen s.length) ≠ [] := drop_compLen_ne_nil hs0
      have ht64 : (s.drop (compLen s.length)).length ≤ 64 := by
        rw [htlen]
        exact pendLen_le64 _
      have htb : ∀ b ∈ s.drop (compLen s.length), b < 256 :=
        fun b hb => hs b (List.mem_of_mem_drop hb)
      have hextract : extractBlock (chunkBlock (s.drop (compLen s.length)) 0)
          (if s.length % 64 = 0 then 64 else s.length % 64) = s.drop (compLen s.length) := by
        rw [show (if s.length % 64 = 0 then 64 else s.length % 64) = pendLen s.length from rfl,
          ← htlen]
        exact extract_chunkBlock htb htne ht64
      have hlastfield : (canonicalSha1 s).aLastBlock =
          some (chunkBlock (s.drop (compLen s.length)) 0) := by
        show (chunk (s.drop (compLen s.length))).getLast? = _
        rw [chunk_small _ htne ht64]
        rfl
      rw [feed_unfold_some (canonicalSha1 s) p rfl hpe _ hlastfield]
      rw [show (canonicalSha1 s).nAccumulatedMessageLength = s.length from rfl, hextract]
      have hw : s.drop (compLen s.length) ++ p ≠ [] := by
        intro hcon
        exact htne (List.append_eq_nil.mp hcon).1
      have hsplit : s ++ p = s.take (compLen s.length) ++ (s.drop (compLen s.length) ++ p) := by
        rw [← List.append_assoc, List.take_append_drop]
      have hAlen : (s.take (compLen s.length)).length = compLen s.length :=
        List.length_take_of_le (compLen_le _)
      have hlen_tp : (s.drop (compLen s.length) ++ p).length = pendLen s.length + p.length := by
        rw [List.length_append, htlen]
      have hcsp : compLen (s.length + p.length) =
          compLen s.length + compLen ((s.drop (compLen s.length) ++ p).length) := by
        rw [hlen_tp]
        exact compLen_add p.length hs0'
      have htake : (s ++ p).take (compLen (s.length + p.length)) =
          s.take (compLen s.length) ++
            (s.drop (compLen s.length) ++ p).take
              (compLen ((s.drop (compLen s.length) ++ p).length)) := by
        rw [hcsp, hsplit,
          take_len_append (s.take (compLen s.length)) (s.drop (compLen s.length) ++ p) hAlen]
      have hdrop : (s ++ p).drop (compLen (s.length + p.length)) =
          (s.drop (compLen s.length) ++ p).drop
            (compLen ((s.drop (compLen s.length) ++ p).length)) := by
        rw [hcsp, hsplit,
          drop_len_append (s.take (compLen s.length)) (s.drop (compLen s.length) ++ p) hAlen]
      have hdecomp := chunk_decomp (s.drop (compLen s.length) ++ p) hw
      have hsmall2 : chunk ((s.drop (compLen s.length) ++ p).drop
            (compLen ((s.drop (compLen s.length) ++ p).length))) =
          [chunkBlock ((s.drop (compLen s.length) ++ p).drop
            (compLen ((s.drop (compLen s.length) ++ p).length))) 0] := by
        apply chunk_small _ (drop_compLen_ne_nil hw)
        rw [pendLen_eq_length_drop hw]
        exact pendLen_le64 _
      have hres : feedHashWithBlocks
            (feedHashWithBlocks Sha1.new.aResults (chunk (s.take (compLen s.length))))
            (chunk (s.drop (compLen s.length) ++ p)).dropLast =
          feedHashWithBlocks Sha1.new.aResults
            (chunk ((s ++ p).take (compLen (s.length + p.length)))) := by
        rw [hdecomp, List.dropLast_concat]
        unfold feedHashWithBlocks
        rw [← List.foldl_append]
        rw [← chunk_append _ _ (by rw [hAlen]; exact compLen_mod _), ← htake]
      have hlastres : (chunk (s.drop (compLen s.length) ++ p)).getLast? =
          (chunk ((s ++ p).drop (compLen (s.length + p.length)))).getLast? := by
        rw [hdecomp, List.getLast?_concat, hdrop, hsmall2]
        rfl
      unfold canonicalSha1
      simp only [Except.ok.injEq, Sha1.mk.injEq, List.length_append]
      exact ⟨hres, hlastres, trivial, trivial⟩

lemma feedAll_canonical (pieces : List (List Nat)) :
    ∀ s : List Nat, (∀ b ∈ s, b < 256) → (∀ piece ∈ pieces, ∀ b ∈ piece, b < 256) →
      (canonicalSha1 s).feedAll pieces = .ok (canonicalSha1 (s ++ pieces.flatten)) := by
  induction pieces with
  | nil =>
      intro s _ _
      simp [Sha1.feedAll]
  | cons p rest ih =>
      intro s hs hp
      have hpb : ∀ b ∈ p, b < 256 := hp p (List.mem_cons_self p rest)
      have hsp : ∀ b ∈ s ++ p, b < 256 := by
        intro b hb
        rcases List.mem_append.mp hb with h | h
        · exact hs b h
        · exact hpb b h
      unfold Sha1.feedAll
      rw [feed_canonical s p hs]
      show (canonicalSha1 (s ++ p)).feedAll rest = _
      rw [ih (s ++ p) hsp (fun q hq => hp q (List.mem_cons_of_mem p hq)),
        List.flatten_cons, ← List.append_assoc]

lemma feedAll_new (pieces : List (List Nat))
    (h : ∀ piece ∈ pieces, ∀ b ∈ piece, b < 256) :
    Sha1.new.feedAll pieces = .ok (canonicalSha1 pieces.flatten) := by
  have h1 := feedAll_canonical pieces [] (by simp) h
  rw [canonical_nil, List.nil_append] at h1
  exact h1

lemma feed_new (input : List Nat) :
    Sha1.new.feed input = .ok (canonicalSha1 input) := by
  have h2 := feed_canonical [] input (by simp)
  rwa [canonical_nil, List.nil_append] at h2

/-- C1: for every byte sequence and every way of splitting it into a list
of consecutive pieces, feeding the pieces one by one to a fresh Sha1
instance and finalizing yields the same digest as feeding the whole
sequence in a single feed call and finalizing. -/
theorem sha1_incremental_one_shot (pieces : List (List Nat))
    (h : ∀ piece ∈ pieces, ∀ b ∈ piece, b < 256) :
    (Sha1.new.feedAll pieces).map (fun st => (st.finalize false).1) =
      (Sha1.new.feed pieces.flatten).map (fun st => (st.finalize false).1) := by
  rw [feedAll_new pieces h, feed_new pieces.flatten]

theorem sha1_incremental_one_shot_witness :
    (∀ piece ∈ [[97, 98, 99], [100, 101]], ∀ b ∈ piece, b < 256) ∧
      (Sha1.new.feedAll [[97, 98, 99], [100, 101]]).map (fun st => (st.finalize false).1) =
        (Sha1.new.feed [[97, 98, 99], [100, 101]].flatten).map (fun st => (st.finalize false).1) :=
  ⟨by decide, sha1_incremental_one_shot [[97, 98, 99], [100, 101]] (by decide)⟩

/-- C2: the digest of the 6-byte ASCII string abcdef is
1f8ac10f23c5b5bc1167bda84b833e5c057a77d2, and the digest of the
1500-byte string of repeated ASCII A (code 65) is
a7f644d4a5b863037da8cadd2e69640ef3dc804e.  The long vector is evaluated
by splitting the input into 24 consecutive feed calls, which reach the
same state as one feed by the canonical-state lemmas. -/
theorem sha1_known_answer_vectors :
    sha1hex (strToBytes "abcdef") = "1f8ac10f23c5b5bc1167bda84b833e5c057a77d2" ∧
      sha1hex (List.replicate 1500 65) = "a7f644d4a5b863037da8cadd2e69640ef3dc804e" := by
  constructor
  · decide!
  · have hpieces : (List.replicate 23 (List.replicate 64 65) ++
        [List.replicate 28 65]).flatten = List.replicate 1500 65 := by decide!
    have hb : ∀ piece ∈ List.replicate 23 (List.replicate 64 65) ++ [List.replicate 28 65],
        ∀ b ∈ piece, b < 256 := by decide!
    have heq : Sha1.new.feed (List.replicate 1500 65) =
        Sha1.new.feedAll (List.replicate 23 (List.replicate 64 65) ++
          [List.replicate 28 65]) := by
      rw [feedAll_new _ hb, ← hpieces, feed_new]
    unfold sha1hex
    rw [heq]
    decide!

/-- C10: finalizing a fresh instance (no bytes ever fed, or only an empty
feed) skips padding because no last block was retained, and returns the
rendering of the unmodified initialization constants, not the RFC 3174
digest of the empty message. -/
theorem sha1_empty_digest_is_init_constants :
    (Sha1.new.finalize false).1 = "67452301efcdab8998badcfe10325476c3d2e1f0" ∧
      sha1hex [] = "67452301efcdab8998badcfe10325476c3d2e1f0" ∧
      "67452301efcdab8998badcfe10325476c3d2e1f0" ≠
        "da39a3ee5e6b4b0d3255bfef95601890afd80709" := by
  refine ⟨by decide!, by decide!, by decide⟩

/-- C7: feeding any input (empty included) to an instance on which
finalize has run fails with the InvalidState error; in the source the
feed method is replaced by a throwing function, so the digest state is
untouched. -/
theorem feed_after_finalize_errors (s : Sha1) (input : List Nat) (bRaw : Bool) :
    ((s.finalize bRaw).2).feed input =
      .error ("You cannot feed an already finalized hash again.") := by
  unfold Sha1.finalize Sha1.feed
  cases s.aLastBlock <;> simp

lemma toNat_ofNat_of_lt {b : Nat} (h : b < 256) : (Char.ofNat b).toNat = b := by
  have hv : b.isValidChar := Or.inl (by omega)
  rw [Char.ofNat, dif_pos hv]
  rfl

/-- Rendering used by the spec to compare the two digest formats: every
character code of the binary digest written as two lowercase hex digits. -/
def byteToHexPair (b : Nat) : List Char :=
  [hexChar (b / 16), hexChar (b % 16)]

/-- A whole binary string rendered as lowercase hex, byte by byte. -/
def renderHexString (s : String) : String :=
  String.mk ((s.data.map (fun ch => byteToHexPair ch.toNat)).flatten)

lemma byte_hi (x sh : Nat) : ((x >>> sh) &&& 255) / 16 = (x >>> (sh + 4)) &&& 15 := by
  rw [show (255 : Nat) = 2 ^ 8 - 1 from rfl, show (15 : Nat) = 2 ^ 4 - 1 from rfl,
    Nat.and_pow_two_sub_one_eq_mod, Nat.and_pow_two_sub_one_eq_mod,
    Nat.shiftRight_eq_div_pow, Nat.shiftRight_eq_div_pow, Nat.pow_add,
    ← Nat.div_div_eq_div_mul]
  omega

lemma byte_lo (x sh : Nat) : ((x >>> sh) &&& 255) % 16 = (x >>> sh) &&& 15 := by
  rw [show (255 : Nat) = 2 ^ 8 - 1 from rfl, show (15 : Nat) = 2 ^ 4 - 1 from rfl,
    Nat.and_pow_two_sub_one_eq_mod, Nat.and_pow_two_sub_one_eq_mod]
  omega

lemma byte_and_255_lt (x : Nat) : x &&& 255 < 256 := by
  rw [show (255 : Nat) = 2 ^ 8 - 1 from rfl, Nat.and_pow_two_sub_one_eq_mod]
  omega

lemma byte_hi0 (x : Nat) : (x &&& 255) / 16 = (x >>> 4) &&& 15 := by
  have h := byte_hi x 0
  rwa [Nat.shiftRight_zero, Nat.zero_add] at h

lemma byte_lo0 (x : Nat) : (x &&& 255) % 16 = x &&& 15 := by
  have h := byte_lo x 0
  rwa [Nat.shiftRight_zero] at h

lemma shiftRight_twice (x a b : Nat) : (x >>> a) >>> b = x >>> (a + b) := by
  rw [Nat.shiftRight_add]

lemma word_pairs (w : Nat) :
    ((((List.range 4).map (fun j => Char.ofNat ((w >>> (24 - j * 8)) &&& 0xff))).map
        (fun ch => byteToHexPair ch.toNat)).flatten) =
      (List.range 8).map (fun k => hexChar ((w >>> ((7 - k) * 4)) &&& 0xf)) := by
  rw [show List.range 4 = [0, 1, 2, 3] from rfl,
    show List.range 8 = [0, 1, 2, 3, 4, 5, 6, 7] from rfl]
  simp only [List.map_cons, List.map_nil, List.flatten_cons, List.flatten_nil,
    List.append_nil]
  unfold byteToHexPair
  rw [toNat_ofNat_of_lt (byte_and_255_lt _), toNat_ofNat_of_lt (byte_and_255_lt _),
    toNat_ofNat_of_lt (byte_and_255_lt _), toNat_ofNat_of_lt (byte_and_255_lt _)]
  simp only [List.cons_append, List.nil_append]
  norm_num [byte_hi, byte_lo, byte_hi0, byte_lo0, shiftRight_twice, Nat.shiftRight_zero]

lemma renderHex_formatBinary (r : HReg) :
    renderHexString (formatHashBinary r) = formatHashHex r := by
  unfold renderHexString formatHashBinary formatHashHex binaryToHexString
  apply String.ext
  simp only [String.data_append]
  show ((([r.h0, r.h1, r.h2, r.h3, r.h4].map (fun part =>
      (List.range 4).map (fun j => Char.ofNat ((part >>> (24 - j * 8)) &&& 0xff)))).flatten).map
        (fun ch => byteToHexPair ch.toNat)).flatten = _
  simp only [List.map_cons, List.map_nil, List.flatten_cons, List.flatten_nil,
    List.append_nil, List.map_append, List.flatten_append, word_pairs, List.append_assoc]

/-- C9: the 20-character binary digest returned by finalize with raw
output, rendered as two lowercase hex digits per character code, equals
byte for byte the 40-character hex digest returned by finalize on an
identically fed instance; both are projections of the same five
accumulator words. -/
theorem binary_hex_digest_consistent (pieces : List (List Nat)) :
    (Sha1.new.feedAll pieces).map (fun st => renderHexString (st.finalize true).1) =
      (Sha1.new.feedAll pieces).map (fun st => (st.finalize false).1) := by
  cases h : Sha1.new.feedAll pieces with
  | error e => rfl
  | ok st =>
      simp only [Except.map]
      congr 1
      show renderHexString (formatHashBinary _) = formatHashHex _
      exact renderHex_formatBinary _

lemma pendingBytes_canonical (s : List Nat) (hs : ∀ b ∈ s, b < 256) :
    (canonicalSha1 s).pendingBytes = s.drop (compLen s.length) := by
  by_cases h : s = []
  · subst h
    rfl
  · unfold Sha1.pendingBytes
    have hlast : (canonicalSha1 s).aLastBlock =
        some (chunkBlock (s.drop (compLen s.length)) 0) := by
      show (chunk (s.drop (compLen s.length))).getLast? = _
      rw [chunk_small _ (drop_compLen_ne_nil h)
        (by rw [pendLen_eq_length_drop h]; exact pendLen_le64 _)]
      rfl
    rw [hlast]
    show extractBlock (chunkBlock (s.drop (compLen s.length)) 0)
        (if s.length % 64 = 0 then 64 else s.length % 64) = s.drop (compLen s.length)
    rw [show (if s.length % 64 = 0 then 64 else s.length % 64) = pendLen s.length from rfl,
      ← pendLen_eq_length_drop h]
    exact extract_chunkBlock (fun b hb => hs b (List.mem_of_mem_drop hb))
      (drop_compLen_ne_nil h)
      (by rw [pendLen_eq_length_drop h]; exact pendLen_le64 _)

/-- C6 counterexample: feeding 64 bytes to a fresh instance leaves the
pending buffer holding exactly 64 unprocessed bytes (the completed block
is retained, not compressed), refuting that the buffer always holds
fewer than 64 bytes after a feed. -/
theorem pending_buffer_64_counterexample :
    (match Sha1.new.feed (List.replicate 64 0) with
      | .ok st => st.pendingBytes.length
      | .error _ => 0) = 64 ∧ ¬ (64 < 64) := by
  refine ⟨by decide!, by decide⟩

/-- C6 amended: after any sequence of feed calls on a fresh instance the
pending buffer holds at most 64 unprocessed bytes, holding exactly 64
precisely when the total number of bytes fed so far is a nonzero
multiple of 64; all earlier completed blocks were compressed. -/
theorem pending_buffer_at_most_64 (pieces : List (List Nat))
    (h : ∀ piece ∈ pieces, ∀ b ∈ piece, b < 256) (st : Sha1)
    (hst : Sha1.new.feedAll pieces = .ok st) :
    st.pendingBytes.length ≤ 64 ∧
      (st.pendingBytes.length = 64 ↔
        pieces.flatten.length ≠ 0 ∧ pieces.flatten.length % 64 = 0) := by
  have hb : ∀ b ∈ pieces.flatten, b < 256 := by
    intro b hbm
    obtain ⟨l, hl, hbl⟩ := List.mem_flatten.mp hbm
    exact h l hl b hbl
  rw [feedAll_new pieces h] at hst
  injection hst with h2
  subst h2
  rw [pendingBytes_canonical _ hb, List.length_drop]
  unfold compLen pendLen
  split <;> omega

theorem pending_buffer_at_most_64_witness :
    ((∀ piece ∈ [[1, 2, 3]], ∀ b ∈ piece, b < 256) ∧
        Sha1.new.feedAll [[1, 2, 3]] = .ok (canonicalSha1 [1, 2, 3])) ∧
      (canonicalSha1 [1, 2, 3]).pendingBytes.length ≤ 64 ∧
        ((canonicalSha1 [1, 2, 3]).pendingBytes.length = 64 ↔
          [[1, 2, 3]].flatten.length ≠ 0 ∧ [[1, 2, 3]].flatten.length % 64 = 0) :=
  ⟨⟨by decide, by decide!⟩,
    pending_buffer_at_most_64 [[1, 2, 3]] (by decide) (canonicalSha1 [1, 2, 3]) (by decide!)⟩

/-!
Chunk planning: SecureUploaderFile.prototype.processNextChunk posts one
chunk per call, starting at nOffset 0 and advancing by nChunksize, until
nOffset reaches the file size; each posted message carries the offset,
the flag last = ( nOffset + nChunksize >= size ), and the worker reports
the chunk size as min( chunkSize, fileSize - offset ).  The loop is
embedded with a fuel argument; totalSize steps always suffice when the
chunk size is positive.
-/

/-- One planned chunk: the byte offset, the number of bytes of the
chunk (from the worker response), and the final-chunk flag. -/
structure ChunkDescriptor where
  offset : Nat
  size : Nat
  last : Bool
deriving DecidableEq

/-- The chunks posted by repeated processNextChunk calls starting at the
given offset, with enough fuel. -/
def planChunksFrom (fuel totalSize chunkSize offset : Nat) : List ChunkDescriptor :=
  match fuel with
  | 0 => []
  | fuel + 1 =>
      if offset < totalSize then
        { offset := offset
          size := min chunkSize (totalSize - offset)
          last := decide (totalSize ≤ offset + chunkSize) } ::
          planChunksFrom fuel totalSize chunkSize (offset + chunkSize)
      else []

/-- The full sequence of chunks planned for one upload session. -/
def planChunks (totalSize chunkSize : Nat) : List ChunkDescriptor :=
  planChunksFrom totalSize totalSize chunkSize 0

lemma planChunksFrom_nil (fuel totalSize chunkSize offset : Nat) (h : ¬ offset < totalSize) :
    planChunksFrom fuel totalSize chunkSize offset = [] := by
  cases fuel with
  | zero => rfl
  | succ fuel =>
      unfold planChunksFrom
      rw [if_neg h]

lemma planChunksFrom_cover (fuel totalSize chunkSize : Nat) (hc : 0 < chunkSize) :
    ∀ offset : Nat, totalSize - offset ≤ fuel →
      ((planChunksFrom fuel totalSize chunkSize offset).map
        (fun ch => List.range' ch.offset ch.size)).flatten =
        List.range' offset (totalSize - offset) := by
  induction fuel with
  | zero =>
      intro offset hfuel
      rw [show totalSize - offset = 0 by omega]
      rfl
  | succ fuel ih =>
      intro offset hfuel
      unfold planChunksFrom
      by_cases ho : offset < totalSize
      · rw [if_pos ho]
        simp only [List.map_cons, List.flatten_cons]
        rw [ih (offset + chunkSize) (by omega)]
        by_cases hle : offset + chunkSize < totalSize
        · rw [show min chunkSize (totalSize - offset) = chunkSize by omega,
            show totalSize - (offset + chunkSize) = totalSize - offset - chunkSize by omega,
            List.range'_append_1,
            show totalSize - offset - chunkSize + chunkSize = totalSize - offset by omega]
        · rw [show min chunkSize (totalSize - offset) = totalSize - offset by omega,
            show totalSize - (offset + chunkSize) = 0 by omega]
          simp
      · rw [if_neg ho, show totalSize - offset = 0 by omega]
        rfl

lemma planChunksFrom_one_final (fuel totalSize chunkSize : Nat) (hc : 0 < chunkSize) :
    ∀ offset : Nat, offset < totalSize → totalSize - offset ≤ fuel →
      ((planChunksFrom fuel totalSize chunkSize offset).filter
        (fun ch => ch.last)).length = 1 := by
  induction fuel with
  | zero =>
      intro offset ho hfuel
      exact absurd hfuel (by omega)
  | succ fuel ih =>
      intro offset ho hfuel
      unfold planChunksFrom
      rw [if_pos ho]
      by_cases hlast : totalSize ≤ offset + chunkSize
      · rw [planChunksFrom_nil fuel _ _ _ (by omega)]
        simp [hlast]
      · rw [List.filter_cons]
        simp only [decide_eq_true_eq]
        rw [if_neg (by simpa using hlast)]
        exact ih (offset + chunkSize) (by omega) (by omega)

lemma planChunksFrom_offset_lb (fuel totalSize chunkSize offset : Nat) :
    ∀ ch ∈ planChunksFrom fuel totalSize chunkSize offset, offset ≤ ch.offset := by
  induction fuel generalizing offset with
  | zero =>
      intro ch h
      exact absurd h (List.not_mem_nil ch)
  | succ fuel ih =>
      intro ch h
      unfold planChunksFrom at h
      by_cases ho : offset < totalSize
      · rw [if_pos ho] at h
        rcases List.mem_cons.mp h with h1 | h1
        · subst h1
          exact Nat.le_refl _
        · have := ih (offset + chunkSize) ch h1
          omega
      · rw [if_neg ho] at h
        exact absurd h (List.not_mem_nil ch)

lemma planChunksFrom_pairwise (fuel totalSize chunkSize : Nat) (hc : 0 < chunkSize) :
    ∀ offset : Nat, (planChunksFrom fuel totalSize chunkSize offset).Pairwise
      (fun a b => a.offset < b.offset) := by
  induction fuel with
  | zero =>
      intro offset
      exact List.Pairwise.nil
  | succ fuel ih =>
      intro offset
      unfold planChunksFrom
      by_cases ho : offset < totalSize
      · rw [if_pos ho]
        refine List.Pairwise.cons ?_ (ih (offset + chunkSize))
        intro ch hch
        have := planChunksFrom_offset_lb fuel totalSize chunkSize (offset + chunkSize) ch hch
        show offset < ch.offset
        omega
      · rw [if_neg ho]
        exact List.Pairwise.nil

lemma planChunksFrom_last_iff (fuel totalSize chunkSize : Nat) :
    ∀ offset : Nat, ∀ ch ∈ planChunksFrom fuel totalSize chunkSize offset,
      ch.last = decide (totalSize ≤ ch.offset + chunkSize) := by
  induction fuel with
  | zero =>
      intro offset ch h
      exact absurd h (List.not_mem_nil ch)
  | succ fuel ih =>
      intro offset ch h
      unfold planChunksFrom at h
      by_cases ho : offset < totalSize
      · rw [if_pos ho] at h
        rcases List.mem_cons.mp h with h1 | h1
        · subst h1
          rfl
        · exact ih (offset + chunkSize) ch h1
      · rw [if_neg ho] at h
        exact absurd h (List.not_mem_nil ch)

/-- C3 counterexample: with totalSize 0 and chunkSize 1 (both allowed by
the claim) the plan is empty, so the number of chunks carrying the final
flag is 0, not exactly one. -/
theorem planChunks_zero_total_counterexample :
    planChunks 0 1 = [] ∧
      ((planChunks 0 1).filter (fun ch => ch.last)).length = 0 ∧
      ((planChunks 0 1).filter (fun ch => ch.last)).length ≠ 1 := by
  refine ⟨rfl, rfl, by decide⟩

/-- C3 amended: for every totalSize > 0 and chunkSize > 0 the planned
chunks cover the interval from 0 to totalSize exactly, with no gaps and
no overlaps, in strictly ascending offset order, exactly one chunk
carries the final flag, and the flag is set exactly when
offset + chunkSize reaches totalSize.  (For totalSize = 0 the plan is
empty and carries no final flag.) -/
theorem planChunks_partitions (totalSize chunkSize : Nat) (hc : 0 < chunkSize)
    (ht : 0 < totalSize) :
    ((planChunks totalSize chunkSize).map
        (fun ch => List.range' ch.offset ch.size)).flatten = List.range totalSize ∧
      ((planChunks totalSize chunkSize).filter (fun ch => ch.last)).length = 1 ∧
      (planChunks totalSize chunkSize).Pairwise (fun a b => a.offset < b.offset) ∧
      ∀ ch ∈ planChunks totalSize chunkSize,
        ch.last = decide (totalSize ≤ ch.offset + chunkSize) := by
  unfold planChunks
  refine ⟨?_, ?_, ?_, ?_⟩
  · have h := planChunksFrom_cover totalSize totalSize chunkSize hc 0 (by omega)
    rw [Nat.sub_zero] at h
    rw [List.range_eq_range']
    exact h
  · exact planChunksFrom_one_final totalSize totalSize chunkSize hc 0 ht (by omega)
  · exact planChunksFrom_pairwise totalSize totalSize chunkSize hc 0
  · exact planChunksFrom_last_iff totalSize totalSize chunkSize 0

theorem planChunks_partitions_witness :
    ((0 : Nat) < 4 ∧ (0 : Nat) < 10) ∧
      (((planChunks 10 4).map
          (fun ch => List.range' ch.offset ch.size)).flatten = List.range 10 ∧
        ((planChunks 10 4).filter (fun ch => ch.last)).length = 1 ∧
        (planChunks 10 4).Pairwise (fun a b => a.offset < b.offset) ∧
        ∀ ch ∈ planChunks 10 4,
          ch.last = decide (10 ≤ ch.offset + 4)) :=
  ⟨⟨by decide, by decide⟩, planChunks_partitions 10 4 (by decide) (by decide)⟩

/-!
Upload session retry behaviour.  SecureUploaderFile sets nRetriesLeft 3
once in its constructor; the uploadChunk completion callback advances
via processNextChunk on success and, on failure, retries the same chunk
while nRetriesLeft is nonzero, decrementing it; when it reaches zero
nothing further happens.  No code path ever resets the counter.
-/

/-- Phases of the session loop: a transfer in flight, finished, or
silently stopped after exhausting retries. -/
inductive UploadMode where
  | uploading : UploadMode
  | done : UploadMode
  | stalled : UploadMode
deriving DecidableEq

/-- The session state affected by the retry logic: nOffset (already
advanced past the chunk in flight by processNextChunk) and nRetriesLeft,
plus the phase. -/
structure UploadState where
  nOffset : Nat
  nRetriesLeft : Nat
  mode : UploadMode
deriving DecidableEq

/-- Embedding of the constructor (nOffset 0, nRetriesLeft 3) followed by
start, whose processNextChunk posts the first chunk and advances
nOffset, or does nothing for an empty file. -/
def startUpload (fileSize chunkSize : Nat) : UploadState :=
  if 0 < fileSize then
    { nOffset := chunkSize, nRetriesLeft := 3, mode := UploadMode.uploading }
  else
    { nOffset := 0, nRetriesLeft := 3, mode := UploadMode.done }

/-- Embedding of the completion callback in
SecureUploaderFile.prototype.uploadChunk, one call per finished transfer
attempt: on success processNextChunk either posts the next chunk
(advancing nOffset) or reports completion; on failure the same chunk is
retried while nRetriesLeft is nonzero, decrementing it, and with the
counter at zero nothing happens.  The counter is never reset. -/
def transferComplete (fileSize chunkSize : Nat) (st : UploadState) (bSuccess : Bool) :
    UploadState :=
  if st.mode ≠ UploadMode.uploading then st
  else if bSuccess then
    if st.nOffset < fileSize then { st with nOffset := st.nOffset + chunkSize }
    else { st with mode := UploadMode.done }
  else if st.nRetriesLeft ≠ 0 then { st with nRetriesLeft := st.nRetriesLeft - 1 }
  else { st with mode := UploadMode.stalled }

/-- The session state after a sequence of transfer-attempt outcomes. -/
def runUpload (fileSize chunkSize : Nat) (outcomes : List Bool) : UploadState :=
  outcomes.foldl (transferComplete fileSize chunkSize) (startUpload fileSize chunkSize)

lemma transferComplete_retries_le (fileSize chunkSize : Nat) (st : UploadState) (b : Bool) :
    (transferComplete fileSize chunkSize st b).nRetriesLeft ≤ st.nRetriesLeft := by
  unfold transferComplete
  split
  · exact Nat.le_refl _
  · split
    · split <;> exact Nat.le_refl _
    · split
      · exact Nat.sub_le _ _
      · exact Nat.le_refl _

lemma transferComplete_true_retries (fileSize chunkSize : Nat) (st : UploadState) :
    (transferComplete fileSize chunkSize st true).nRetriesLeft = st.nRetriesLeft := by
  unfold transferComplete
  split
  · rfl
  · rw [if_pos rfl]
    split <;> rfl

lemma foldl_retries_le (fileSize chunkSize : Nat) (outcomes : List Bool) :
    ∀ st : UploadState,
      (outcomes.foldl (transferComplete fileSize chunkSize) st).nRetriesLeft ≤
        st.nRetriesLeft := by
  induction outcomes with
  | nil =>
      intro st
      exact Nat.le_refl _
  | cons b rest ih =>
      intro st
      rw [List.foldl_cons]
      exact Nat.le_trans (ih _) (transferComplete_retries_le fileSize chunkSize st b)

/-- C4 counterexample: file of 2 bytes, chunk size 1.  The first chunk
fails once (counter 3 to 2) and then succeeds; the session advances to
the second chunk with the counter still at 2, not reset to its full
value 3. -/
theorem retry_counter_not_reset_counterexample :
    runUpload 2 1 [false] =
        { nOffset := 1, nRetriesLeft := 2, mode := UploadMode.uploading } ∧
      transferComplete 2 1 (runUpload 2 1 [false]) true =
        { nOffset := 2, nRetriesLeft := 2, mode := UploadMode.uploading } ∧
      (2 : Nat) ≠ 3 := by
  refine ⟨by decide, by decide, by decide⟩

/-- C4 amended: the retry budget of 3 is shared by the whole session
rather than counted per chunk: the counter never increases, a completed
successful transfer leaves it unchanged (advancing does not reset it),
and it never exceeds its initial value 3. -/
theorem retry_budget_shared (fileSize chunkSize : Nat) (outcomes : List Bool) (b : Bool) :
    (runUpload fileSize chunkSize (outcomes ++ [b])).nRetriesLeft ≤
        (runUpload fileSize chunkSize outcomes).nRetriesLeft ∧
      (b = true → (runUpload fileSize chunkSize (outcomes ++ [b])).nRetriesLeft =
        (runUpload fileSize chunkSize outcomes).nRetriesLeft) ∧
      (runUpload fileSize chunkSize outcomes).nRetriesLeft ≤ 3 := by
  have hstep : runUpload fileSize chunkSize (outcomes ++ [b]) =
      transferComplete fileSize chunkSize (runUpload fileSize chunkSize outcomes) b := by
    unfold runUpload
    rw [List.foldl_append]
    rfl
  refine ⟨?_, ?_, ?_⟩
  · rw [hstep]
    exact transferComplete_retries_le _ _ _ _
  · intro hb
    subst hb
    rw [hstep]
    exact transferComplete_true_retries _ _ _
  · have h3 : (startUpload fileSize chunkSize).nRetriesLeft = 3 := by
      unfold startUpload
      split <;> rfl
    have := foldl_retries_le fileSize chunkSize outcomes (startUpload fileSize chunkSize)
    unfold runUpload
    omega

theorem retry_budget_shared_witness :
    (runUpload 2 1 ([false] ++ [true])).nRetriesLeft ≤
        (runUpload 2 1 [false]).nRetriesLeft ∧
      (true = true → (runUpload 2 1 ([false] ++ [true])).nRetriesLeft =
        (runUpload 2 1 [false]).nRetriesLeft) ∧
      (runUpload 2 1 [false]).nRetriesLeft ≤ 3 :=
  retry_budget_shared 2 1 [false] true

/-!
Receiver embedding (the PHP upload script).  The chunk store of one
session is a list of (file name, content) entries in arrival order; file
names are lists of characters.
-/

/-- One decimal digit character. -/
def digitChar (n : Nat) : Char :=
  Char.ofNat (48 + n)

/-- Decimal representation of o, zero-padded on the left to width w,
most significant digit first (the value of sprintf with a zero-padded
width-w conversion for numbers below 10 ^ w). -/
def padDigits : Nat → Nat → List Char
  | 0, _ => []
  | w + 1, o => digitChar (o / 10 ^ w) :: padDigits w (o % 10 ^ w)

/-- Embedding of the PHP key expression sprintf( percent-015s, offset ):
the decimal digits of the offset, zero-padded to 15 characters; sprintf
never truncates, so larger offsets keep their full decimal form. -/
def sprintf015 (o : Nat) : List Char :=
  if o < 10 ^ 15 then padDigits 15 o else Nat.toDigits 10 o

/-- Target name of a persisted chunk: the basename of the uploaded file,
a dot, and the padded offset. -/
def chunkKey (name : List Char) (offset : Nat) : List Char :=
  name ++ '.' :: sprintf015 offset

/-- Embedding of the chunk upload handler of the PHP receiver: the
uploaded chunk is moved into the session directory under its key first,
and only then is the stored file re-hashed and compared, after strtolower
on both sides, with the hash field of the request; on mismatch the script
raises an error (driving an HTTP 500) and stops, leaving the stored file
in place.  The boolean result is false when the handler errors out. -/
def handleChunkUpload (dir : List (List Char × List Nat)) (chunkName : List Char)
    (offset : Nat) (sHash : String) (bytes : List Nat) :
    List (List Char × List Nat) × Bool :=
  let target_name := chunkKey chunkName offset
  let dir2 := dir ++ [(target_name, bytes)]
  if (sha1hex bytes).toLower = sHash.toLower then (dir2, true) else (dir2, false)

/-- C5 counterexample: submitting the 1-byte chunk 0x61 with a wrong
claimed hash is rejected, yet the corrupted bytes are persisted: after
the rejection the chunk store holds an entry with exactly those bytes. -/
theorem mismatch_persists_counterexample :
    (handleChunkUpload [] [Char.ofNat 102] 0
        "0000000000000000000000000000000000000000" [97]).2 = false ∧
      ((handleChunkUpload [] [Char.ofNat 102] 0
        "0000000000000000000000000000000000000000" [97]).1.map (fun e => e.2)) = [[97]] := by
  refine ⟨by decide!, by decide!⟩

/-- C5 amended: on a hash mismatch the receiver signals an error, but
the chunk bytes were already moved into the session chunk store before
verification and remain there afterwards: the handler appends the entry
under the offset key and then reports failure. -/
theorem mismatch_persists (dir : List (List Char × List Nat)) (chunkName : List Char)
    (offset : Nat) (sHash : String) (bytes : List Nat)
    (hmismatch : (sha1hex bytes).toLower ≠ sHash.toLower) :
    handleChunkUpload dir chunkName offset sHash bytes =
      (dir ++ [(chunkKey chunkName offset, bytes)], false) := by
  unfold handleChunkUpload
  rw [if_neg hmismatch]

theorem mismatch_persists_witness :
    ((sha1hex [97]).toLower ≠ "0000000000000000000000000000000000000000".toLower) ∧
      handleChunkUpload [] [Char.ofNat 102] 0
          "0000000000000000000000000000000000000000" [97] =
        ([] ++ [(chunkKey [Char.ofNat 102] 0, [97])], false) :=
  ⟨by decide!, mismatch_persists [] [Char.ofNat 102] 0
    "0000000000000000000000000000000000000000" [97] (by decide!)⟩

/-- Byte-order (strcmp-style) comparison of file names, at-most. -/
def strLe : List Char → List Char → Bool
  | [], _ => true
  | _ :: _, [] => false
  | c :: cs, d :: ds => if c = d then strLe cs ds else decide (c < d)

/-- Byte-order comparison of file names, strict. -/
def strLt : List Char → List Char → Bool
  | [], [] => false
  | [], _ :: _ => true
  | _ :: _, [] => false
  | c :: cs, d :: ds => if c = d then strLt cs ds else decide (c < d)

/-- The sorting relation used for the chunk list (PHP sort compares the
names as strings). -/
def strLeProp (a b : List Char) : Prop :=
  strLe a b = true

instance : DecidableRel strLeProp :=
  fun a b => inferInstanceAs (Decidable (strLe a b = true))

lemma char_toNat_inj {c d : Char} (h : c.toNat = d.toNat) : c = d :=
  Char.ext (UInt32.ext h)

lemma char_lt_or (c d : Char) (h : ¬ c = d) : c < d ∨ d < c := by
  rcases Nat.lt_trichotomy c.toNat d.toNat with h1 | h1 | h1
  · exact Or.inl h1
  · exact absurd (char_toNat_inj h1) h
  · exact Or.inr h1

lemma char_lt_asymm {c d : Char} (h1 : c < d) (h2 : d < c) : False := by
  have ha : c.toNat < d.toNat := h1
  have hb : d.toNat < c.toNat := h2
  omega

lemma strLe_total (a b : List Char) : strLe a b = true ∨ strLe b a = true := by
  induction a generalizing b with
  | nil => exact Or.inl rfl
  | cons c cs ih =>
      cases b with
      | nil => exact Or.inr rfl
      | cons d ds =>
          by_cases hcd : c = d
          · subst hcd
            unfold strLe
            rw [if_pos rfl, if_pos rfl]
            exact ih ds
          · unfold strLe
            rw [if_neg hcd, if_neg (fun h => hcd h.symm)]
            rcases char_lt_or c d hcd with h | h
            · exact Or.inl (by simpa using h)
            · exact Or.inr (by simpa using h)

lemma strLe_trans {a b c : List Char} (hab : strLe a b = true) (hbc : strLe b c = true) :
    strLe a c = true := by
  induction a generalizing b c with
  | nil => rfl
  | cons x xs ih =>
      cases b with
      | nil => exact absurd hab (by simp [strLe])
      | cons y ys =>
          cases c with
          | nil => exact absurd hbc (by simp [strLe])
          | cons z zs =>
              unfold strLe at hab hbc ⊢
              by_cases hxy : x = y
              · subst hxy
                rw [if_pos rfl] at hab
                by_cases hyz : x = z
                · subst hyz
                  rw [if_pos rfl] at hbc
                  rw [if_pos rfl]
                  exact ih hab hbc
                · rw [if_neg hyz] at hbc
                  rw [if_neg hyz]
                  exact hbc
              · rw [if_neg hxy] at hab
                have hxylt : x < y := by simpa using hab
                by_cases hyz : y = z
                · subst hyz
                  rw [if_neg hxy]
                  simpa using hxylt
                · rw [if_neg hyz] at hbc
                  have hyzlt : y < z := by simpa using hbc
                  have hxz : x < z := lt_trans hxylt hyzlt
                  have hxzne : ¬ x = z := by
                    intro h
                    subst h
                    exact char_lt_asymm hxylt hyzlt
                  rw [if_neg hxzne]
                  simpa using hxz

lemma strLe_antisymm {a b : List Char} (hab : strLe a b = true) (hba : strLe b a = true) :
    a = b := by
  induction a generalizing b with
  | nil =>
      cases b with
      | nil => rfl
      | cons d ds => exact absurd hba (by simp [strLe])
  | cons c cs ih =>
      cases b with
      | nil => exact absurd hab (by simp [strLe])
      | cons d ds =>
          unfold strLe at hab hba
          by_cases hcd : c = d
          · subst hcd
            rw [if_pos rfl] at hab hba
            rw [ih hab hba]
          · rw [if_neg hcd] at hab
            rw [if_neg (fun h => hcd h.symm)] at hba
            exact absurd (char_lt_asymm (by simpa using hab) (by simpa using hba)) not_false

instance : IsTotal (List Char) strLeProp :=
  ⟨strLe_total⟩

instance : IsTrans (List Char) strLeProp :=
  ⟨fun _ _ _ => strLe_trans⟩

instance : IsAntisymm (List Char) strLeProp :=
  ⟨fun _ _ => strLe_antisymm⟩

lemma strLt_le {a b : List Char} (h : strLt a b = true) : strLe a b = true := by
  induction a generalizing b with
  | nil => rfl
  | cons c cs ih =>
      cases b with
      | nil => exact absurd h (by simp [strLt])
      | cons d ds =>
          unfold strLt at h
          unfold strLe
          by_cases hcd : c = d
          · rw [if_pos hcd] at h
            rw [if_pos hcd]
            exact ih h
          · rw [if_neg hcd] at h
            rw [if_neg hcd]
            exact h

lemma strLt_irrefl (a : List Char) : strLt a a = false := by
  induction a with
  | nil => rfl
  | cons c cs ih =>
      unfold strLt
      rw [if_pos rfl]
      exact ih

lemma strLt_ne {a b : List Char} (h : strLt a b = true) : a ≠ b := by
  intro hab
  subst hab
  rw [strLt_irrefl a] at h
  exact Bool.false_ne_true h

lemma strLt_append_left (n x y : List Char) :
    strLt (n ++ x) (n ++ y) = strLt x y := by
  induction n with
  | nil => rfl
  | cons c cs ih =>
      have hstep : strLt ((c :: cs) ++ x) ((c :: cs) ++ y) = strLt (cs ++ x) (cs ++ y) := by
        show (if c = c then strLt (cs ++ x) (cs ++ y) else decide (c < c)) = _
        rw [if_pos rfl]
      rw [hstep, ih]

lemma digitChar_toNat {n : Nat} (h : n < 10) : (digitChar n).toNat = 48 + n := by
  unfold digitChar
  exact toNat_ofNat_of_lt (by omega)

lemma digitChar_lt {m n : Nat} (hm : m < 10) (hn : n < 10) (h : m < n) :
    digitChar m < digitChar n := by
  show (digitChar m).toNat < (digitChar n).toNat
  rw [digitChar_toNat hm, digitChar_toNat hn]
  omega

lemma digitChar_ne {m n : Nat} (hm : m < 10) (hn : n < 10) (h : ¬ m = n) :
    ¬ digitChar m = digitChar n := by
  intro he
  apply h
  have h2 := congrArg Char.toNat he
  rw [digitChar_toNat hm, digitChar_toNat hn] at h2
  omega

lemma padDigits_lt : ∀ (w : Nat) {a b : Nat}, a < b → b < 10 ^ w →
    strLt (padDigits w a) (padDigits w b) = true := by
  intro w
  induction w with
  | zero =>
      intro a b hab hb
      exact absurd hb (by omega)
  | succ w ih =>
      intro a b hab hb
      have hpw : 0 < 10 ^ w := Nat.pow_pos (by omega)
      have hsucc : 10 ^ (w + 1) = 10 ^ w * 10 := Nat.pow_succ 10 w
      have hda : a / 10 ^ w < 10 := Nat.div_lt_of_lt_mul (by omega)
      have hdb : b / 10 ^ w < 10 := Nat.div_lt_of_lt_mul (by omega)
      by_cases hq : a / 10 ^ w = b / 10 ^ w
      · have hchar : digitChar (a / 10 ^ w) = digitChar (b / 10 ^ w) := by rw [hq]
        show (if digitChar (a / 10 ^ w) = digitChar (b / 10 ^ w) then
            strLt (padDigits w (a % 10 ^ w)) (padDigits w (b % 10 ^ w))
          else decide (digitChar (a / 10 ^ w) < digitChar (b / 10 ^ w))) = true
        rw [if_pos hchar]
        apply ih
        · have ha2 := Nat.div_add_mod a (10 ^ w)
          have hb2 := Nat.div_add_mod b (10 ^ w)
          rw [hq] at ha2
          omega
        · exact Nat.mod_lt _ hpw
      · have hqle : a / 10 ^ w ≤ b / 10 ^ w := Nat.div_le_div_right (Nat.le_of_lt hab)
        have hqlt : a / 10 ^ w < b / 10 ^ w := by omega
        show (if digitChar (a / 10 ^ w) = digitChar (b / 10 ^ w) then
            strLt (padDigits w (a % 10 ^ w)) (padDigits w (b % 10 ^ w))
          else decide (digitChar (a / 10 ^ w) < digitChar (b / 10 ^ w))) = true
        rw [if_neg (digitChar_ne hda hdb hq)]
        simpa using digitChar_lt hda hdb hqlt

lemma chunkKey_lt (name : List Char) {a b : Nat} (hab : a < b) (hb : b < 10 ^ 15) :
    strLt (chunkKey name a) (chunkKey name b) = true := by
  unfold chunkKey sprintf015
  rw [if_pos (by omega), if_pos hb, List.append_cons name _ (padDigits 15 a),
    List.append_cons name _ (padDigits 15 b), strLt_append_left]
  exact padDigits_lt 15 hab hb

lemma padDigits_length (w : Nat) : ∀ o : Nat, (padDigits w o).length = w := by
  induction w with
  | zero => intro o; rfl
  | succ w ih =>
      intro o
      show (digitChar (o / 10 ^ w) :: padDigits w (o % 10 ^ w)).length = w + 1
      rw [List.length_cons, ih]

lemma chunkKey_length (name : List Char) {o : Nat} (h : o < 10 ^ 15) :
    (chunkKey name o).length = name.length + 16 := by
  unfold chunkKey sprintf015
  rw [if_pos h, List.length_append, List.length_cons, padDigits_length]

lemma chunkKey_ne_name (name : List Char) {o : Nat} (h : o < 10 ^ 15) :
    ¬ name = chunkKey name o := by
  intro he
  have := congrArg List.length he
  rw [chunkKey_length name h] at this
  omega

/-- Entries persisted by a session uploading the given consecutive
chunks of a source, starting at the given byte offset: each chunk is
stored under its offset key. -/
def uploadEntries (name : List Char) : Nat → List (List Nat) → List (List Char × List Nat)
  | _, [] => []
  | offset, c :: rest =>
      (chunkKey name offset, c) :: uploadEntries name (offset + c.length) rest

/-- Content of a stored file, looked up by name (empty when absent). -/
def lookupContent (dir : List (List Char × List Nat)) (f : List Char) : List Nat :=
  match dir.find? (fun e => decide (e.1 = f)) with
  | some e => e.2
  | none => []

/-- Embedding of the PHP combine_chunks: list the directory, skipping the
target name; a single chunk is renamed directly; otherwise the names are
sorted (alphabetical order is important, says the source) and the
contents concatenated in that order. -/
def combine_chunks (to_name : List Char) (dir : List (List Char × List Nat)) : List Nat :=
  let chunk_list := (dir.map (fun e => e.1)).filter (fun f => decide (¬ to_name = f))
  if chunk_list.length = 1 then
    lookupContent dir (chunk_list.getD 0 [])
  else
    ((List.insertionSort strLeProp chunk_list).map (fun f => lookupContent dir f)).flatten

lemma uploadEntries_mem (name : List Char) :
    ∀ (cs : List (List Nat)) (offset : Nat), (∀ c ∈ cs, c ≠ []) →
      ∀ e ∈ uploadEntries name offset cs,
        ∃ o2, e.1 = chunkKey name o2 ∧ offset ≤ o2 ∧ o2 < offset + cs.flatten.length := by
  intro cs
  induction cs with
  | nil =>
      intro offset _ e he
      exact absurd he (List.not_mem_nil e)
  | cons c rest ih =>
      intro offset hne e he
      have hc1 : 1 ≤ c.length := by
        have hcne := hne c (List.mem_cons_self c rest)
        have : c.length ≠ 0 := by simpa [List.length_eq_zero] using hcne
        omega
      have hflat : (c :: rest).flatten.length = c.length + rest.flatten.length := by
        rw [List.flatten_cons, List.length_append]
      unfold uploadEntries at he
      rcases List.mem_cons.mp he with h1 | h1
      · subst h1
        exact ⟨offset, rfl, Nat.le_refl _, by omega⟩
      · obtain ⟨o2, h2, h3, h4⟩ :=
          ih (offset + c.length) (fun x hx => hne x (List.mem_cons_of_mem c hx)) e h1
        exact ⟨o2, h2, by omega, by omega⟩

lemma uploadEntries_keys_sorted (name : List Char) :
    ∀ (cs : List (List Nat)) (offset : Nat), (∀ c ∈ cs, c ≠ []) →
      offset + cs.flatten.length ≤ 10 ^ 15 →
      ((uploadEntries name offset cs).map (fun e => e.1)).Pairwise
        (fun a b => strLt a b = true) := by
  intro cs
  induction cs with
  | nil =>
      intro offset _ _
      exact List.Pairwise.nil
  | cons c rest ih =>
      intro offset hne hbound
      have hc1 : 1 ≤ c.length := by
        have hcne := hne c (List.mem_cons_self c rest)
        have : c.length ≠ 0 := by simpa [List.length_eq_zero] using hcne
        omega
      have hflat : (c :: rest).flatten.length = c.length + rest.flatten.length := by
        rw [List.flatten_cons, List.length_append]
      unfold uploadEntries
      rw [List.map_cons]
      refine List.Pairwise.cons ?_
        (ih (offset + c.length) (fun x hx => hne x (List.mem_cons_of_mem c hx)) (by omega))
      intro k hk
      obtain ⟨e, he, hek⟩ := List.mem_map.mp hk
      obtain ⟨o2, ho2, h3, h4⟩ := uploadEntries_mem name rest (offset + c.length)
        (fun x hx => hne x (List.mem_cons_of_mem c hx)) e he
      rw [← hek, ho2]
      exact chunkKey_lt name (by omega) (by omega)

lemma uploadEntries_snd (name : List Char) :
    ∀ (cs : List (List Nat)) (offset : Nat),
      (uploadEntries name offset cs).map (fun e => e.2) = cs := by
  intro cs
  induction cs with
  | nil => intro offset; rfl
  | cons c rest ih =>
      intro offset
      unfold uploadEntries
      rw [List.map_cons, ih]

lemma uploadEntries_length (name : List Char) :
    ∀ (cs : List (List Nat)) (offset : Nat),
      (uploadEntries name offset cs).length = cs.length := by
  intro cs
  induction cs with
  | nil => intro offset; rfl
  | cons c rest ih =>
      intro offset
      unfold uploadEntries
      rw [List.length_cons, ih, List.length_cons]

lemma mem_unique_key :
    ∀ {l : List (List Char × List Nat)}, ((l.map (fun e => e.1)).Nodup) →
      ∀ {k : List Char} {v : List Nat}, (k, v) ∈ l →
      ∀ {e : List Char × List Nat}, e ∈ l → e.1 = k → e = (k, v) := by
  intro l
  induction l with
  | nil =>
      intro _ k v hm
      exact absurd hm (List.not_mem_nil _)
  | cons x xs ih =>
      intro hnodup k v hm e he hek
      rw [List.map_cons, List.nodup_cons] at hnodup
      obtain ⟨hx, hxs⟩ := hnodup
      rcases List.mem_cons.mp hm with h1 | h1
      · rcases List.mem_cons.mp he with h2 | h2
        · rw [h2, ← h1]
        · exfalso
          apply hx
          have hx1 : x.1 = k := by rw [← h1]
          rw [hx1, ← hek]
          exact List.mem_map.mpr ⟨e, h2, rfl⟩
      · rcases List.mem_cons.mp he with h2 | h2
        · exfalso
          apply hx
          have hx1 : x.1 = k := by rw [← h2]; exact hek
          rw [hx1]
          exact List.mem_map.mpr ⟨(k, v), h1, rfl⟩
        · exact ih hxs h1 h2 hek

lemma lookupContent_eq {dir entries : List (List Char × List Nat)}
    (hperm : dir.Perm entries) (hnodup : (entries.map (fun e => e.1)).Nodup)
    {k : List Char} {v : List Nat} (hmem : (k, v) ∈ entries) :
    lookupContent dir k = v := by
  unfold lookupContent
  cases hfind : dir.find? (fun e => decide (e.1 = k)) with
  | none =>
      have hmem2 : (k, v) ∈ dir := hperm.mem_iff.mpr hmem
      have := List.find?_eq_none.mp hfind (k, v) hmem2
      simp at this
  | some e =>
      have hp := List.find?_some hfind
      have hek : e.1 = k := by simpa using hp
      have hed : e ∈ dir := List.mem_of_find?_eq_some hfind
      have hee : e ∈ entries := hperm.mem_iff.mp hed
      have heq := mem_unique_key hnodup hmem hee hek
      rw [heq]

/-- C8: chunks of a source persisted by the receiver in any arrival
order, keyed by the 15-digit zero-padded offset, reassemble to the
original source: combine_chunks lists the store, sorts the keys as
strings (lexicographic order coincides with numeric offset order for
offsets below 10 ^ 15) and concatenates the contents in that order. -/
theorem reassembly_order_independent (name : List Char) (chunks : List (List Nat))
    (arrival : List (List Char × List Nat))
    (hne : ∀ c ∈ chunks, c ≠ [])
    (hsize : chunks.flatten.length ≤ 10 ^ 15)
    (hperm : arrival.Perm (uploadEntries name 0 chunks)) :
    combine_chunks name arrival = chunks.flatten := by
  have hsorted := uploadEntries_keys_sorted name chunks 0 hne (by omega)
  have hnodup : ((uploadEntries name 0 chunks).map (fun e => e.1)).Nodup :=
    List.Pairwise.imp (fun h => strLt_ne h) hsorted
  have hkeysperm : (arrival.map (fun e => e.1)).Perm
      ((uploadEntries name 0 chunks).map (fun e => e.1)) := hperm.map _
  have hfilter : (arrival.map (fun e => e.1)).filter (fun f => decide (¬ name = f)) =
      arrival.map (fun e => e.1) := by
    rw [List.filter_eq_self]
    intro k hk
    have hk2 : k ∈ (uploadEntries name 0 chunks).map (fun e => e.1) :=
      hkeysperm.mem_iff.mp hk
    obtain ⟨e, he, hek⟩ := List.mem_map.mp hk2
    obtain ⟨o2, ho2, _, hlt⟩ := uploadEntries_mem name chunks 0 hne e he
    rw [← hek, ho2]
    simpa using chunkKey_ne_name name (by omega)
  unfold combine_chunks
  rw [hfilter]
  by_cases hone : (arrival.map (fun e => e.1)).length = 1
  · rw [if_pos hone]
    have hallen : arrival.length = 1 := by simpa using hone
    have hentlen : (uploadEntries name 0 chunks).length = 1 := by
      rw [← hperm.length_eq]
      exact hallen
    have hchlen : chunks.length = 1 := by
      rw [← uploadEntries_length name chunks 0]
      exact hentlen
    obtain ⟨c, rfl⟩ : ∃ c, chunks = [c] := by
      cases chunks with
      | nil => exact absurd hchlen (by simp)
      | cons c rest =>
          cases rest with
          | nil => exact ⟨c, rfl⟩
          | cons d ds => exact absurd hchlen (by simp)
    have hargs : arrival = [(chunkKey name 0, c)] :=
      List.Perm.eq_singleton (by simpa [uploadEntries] using hperm)
    rw [hargs]
    simp [lookupContent]
  · rw [if_neg hone]
    have hsorted_le : ((uploadEntries name 0 chunks).map (fun e => e.1)).Sorted strLeProp :=
      hsorted.imp (fun h => strLt_le h)
    have hperm2 : (List.insertionSort strLeProp (arrival.map (fun e => e.1))).Perm
        ((uploadEntries name 0 chunks).map (fun e => e.1)) :=
      (List.perm_insertionSort strLeProp _).trans hkeysperm
    have hsorteq : List.insertionSort strLeProp (arrival.map (fun e => e.1)) =
        (uploadEntries name 0 chunks).map (fun e => e.1) :=
      List.eq_of_perm_of_sorted hperm2 (List.sorted_insertionSort strLeProp _) hsorted_le
    rw [hsorteq]
    have hmapeq : ((uploadEntries name 0 chunks).map (fun e => e.1)).map
        (fun f => lookupContent arrival f) =
        (uploadEntries name 0 chunks).map (fun e => e.2) := by
      rw [List.map_map]
      apply List.map_congr_left
      intro e he
      rcases e with ⟨k2, v2⟩
      exact lookupContent_eq hperm hnodup he
    rw [hmapeq, uploadEntries_snd]

theorem reassembly_order_independent_witness :
    ((∀ c ∈ ([[1, 2], [3]] : List (List Nat)), c ≠ []) ∧
        ([[1, 2], [3]] : List (List Nat)).flatten.length ≤ 10 ^ 15 ∧
        List.Perm [(chunkKey [Char.ofNat 102] 2, [3]), (chunkKey [Char.ofNat 102] 0, [1, 2])]
          (uploadEntries [Char.ofNat 102] 0 [[1, 2], [3]])) ∧
      combine_chunks [Char.ofNat 102]
          [(chunkKey [Char.ofNat 102] 2, [3]), (chunkKey [Char.ofNat 102] 0, [1, 2])] =
        ([[1, 2], [3]] : List (List Nat)).flatten :=
  ⟨⟨by decide, by decide, by decide⟩,
    reassembly_order_independent [Char.ofNat 102] [[1, 2], [3]]
      [(chunkKey [Char.ofNat 102] 2, [3]), (chunkKey [Char.ofNat 102] 0, [1, 2])]
      (by decide) (by decide) (by decide)⟩
